import Mathlib

/-!
Shallow embedding of the hand-written CNN of `q1.py` (data splitter, layer
forward/backward passes, and the per-sample training driver), together with
theorems settling the specification claims about it.

Arrays are embedded as functions out of `Fin`-indexed types, so every shape
assertion of the source becomes a typing fact.  Numeric entries live in an
arbitrary linear ordered field `α`; concrete evaluations use `ℚ`, while the
claims about `np.exp` / `np.log` are stated over `ℝ` with `Real.exp` and
`Real.log`.
-/

namespace CNN

variable {α : Type} [LinearOrderedField α]

/-- `np.argmax` on a nonempty vector: the index of the **first** occurrence of
the maximum value (numpy documents first-occurrence tie breaking), embedded as
the least index among the maximizers. -/
def npArgmax {n : ℕ} (hn : 0 < n) (v : Fin n → α) : Fin n :=
  (Finset.univ.filter fun i => ∀ j, v j ≤ v i).min' (by
    obtain ⟨i, -, hi⟩ :=
      Finset.exists_max_image Finset.univ v ⟨⟨0, hn⟩, Finset.mem_univ _⟩
    exact ⟨i, Finset.mem_filter.2 ⟨Finset.mem_univ _, fun j => hi j (Finset.mem_univ _)⟩⟩)

/-- `np.max` on a nonempty vector. -/
def npMax {n : ℕ} (hn : 0 < n) (v : Fin n → α) : α :=
  Finset.univ.sup' ⟨⟨0, hn⟩, Finset.mem_univ _⟩ v

/-- `int(np.floor(num_samples * train_ratio))` from `split_data`. -/
def numTrainSamples (N : ℕ) (r : ℚ) : ℕ := ⌊(N : ℚ) * r⌋₊

/-- `split_data` (q1.py lines 4–25), with the outcome of
`np.random.choice(indices, num_train_samples, replace=False)` — an injective
sample of `numTrainSamples N r` distinct indices — passed in as `draw`.
Returns the pair (train index set, validation index set), the latter being the
set difference `set(indices) - set(train_indices)`. -/
def split_data (N : ℕ) (r : ℚ) (draw : Fin (numTrainSamples N r) ↪ Fin N) :
    Finset (Fin N) × Finset (Fin N) :=
  (Finset.univ.map draw, Finset.univ \ Finset.univ.map draw)

/-- Row-major flat index of entry `(i, j, k)` of an `a × b × c` array, as used
by `np.ndarray.flatten` / `np.reshape`. -/
def rowMajorIdx {a b c : ℕ} (i : Fin a) (j : Fin b) (k : Fin c) : Fin (a * b * c) :=
  ⟨(i.val * b + j.val) * c + k.val, by
    have hib : i.val * b + j.val < a * b := by
      calc i.val * b + j.val < i.val * b + b := by omega
        _ = (i.val + 1) * b := by ring
        _ ≤ a * b := Nat.mul_le_mul_right b i.isLt
    calc (i.val * b + j.val) * c + k.val < (i.val * b + j.val) * c + c := by omega
      _ = (i.val * b + j.val + 1) * c := by ring
      _ ≤ a * b * c := Nat.mul_le_mul_right c hib⟩

namespace FlattenLayer

/-- `FlattenLayer.forward` (q1.py lines 234–253): `input.flatten()` in row-major
order, reshaped to a column vector of shape `(a*b*c, 1)`. -/
def forward {a b c : ℕ} (input : Fin a → Fin b → Fin c → α) :
    Fin (a * b * c) → Fin 1 → α :=
  fun m _ =>
    have hbc : 0 < b * c := by
      rcases Nat.eq_zero_or_pos (b * c) with h | h
      · exact absurd (m.isLt) (by simp [Nat.mul_assoc, h])
      · exact h
    input
      ⟨m.val / (b * c), by
        rw [Nat.div_lt_iff_lt_mul hbc, ← Nat.mul_assoc]
        exact m.isLt⟩
      ⟨m.val % (b * c) / c, by
        have hc : 0 < c := Nat.pos_of_ne_zero fun h => by simp [h] at hbc
        have hlt : m.val % (b * c) < b * c := Nat.mod_lt _ hbc
        rw [Nat.div_lt_iff_lt_mul hc]
        omega⟩
      ⟨m.val % (b * c) % c, by
        have hc : 0 < c := Nat.pos_of_ne_zero fun h => by simp [h] at hbc
        exact Nat.mod_lt _ hc⟩

/-- `FlattenLayer.backward` (q1.py lines 255–273): reshape the incoming column
vector back to the cached 3-D shape `(a, b, c)`, row-major. -/
def backward {a b c : ℕ} (output_error : Fin (a * b * c) → Fin 1 → α) :
    Fin a → Fin b → Fin c → α :=
  fun i j k => output_error (rowMajorIdx i j k) 0

end FlattenLayer

/-- Zero-extension of a 2-D array to all of `ℕ × ℕ` (entries outside the index
range read as `0`). -/
def zext {OH OW : ℕ} (g : Fin OH → Fin OW → α) : ℕ → ℕ → α :=
  fun u v => if h : u < OH ∧ v < OW then g ⟨u, h.1⟩ ⟨v, h.2⟩ else 0

/-- `np.pad(g, kk)`: zero-pad a 2-D array by `kk` on each side (presented as a
ℕ-indexed array; entries beyond the padded extent also read as `0`). -/
def npPad {OH OW : ℕ} (kk : ℕ) (g : Fin OH → Fin OW → α) : ℕ → ℕ → α :=
  fun p q =>
    if h : kk ≤ p ∧ p < kk + OH ∧ kk ≤ q ∧ q < kk + OW then
      g ⟨p - kk, by omega⟩ ⟨q - kk, by omega⟩
    else 0

/-- `np.rot90(m, 2)`: rotate a square kernel by 180 degrees. -/
def rot180 {kk : ℕ} (m : Fin (kk + 1) → Fin (kk + 1) → α) :
    Fin (kk + 1) → Fin (kk + 1) → α :=
  fun a b => m ⟨kk - a.val, by omega⟩ ⟨kk - b.val, by omega⟩

namespace ConvolutionLayer

/-- `ConvolutionLayer.forward` (q1.py lines 43–71), with filter size
`k = kk + 1` and input of shape `(OH + kk) × (OW + kk)` so that the output has
shape `(F, OH, OW)` — i.e. `OH = height - filter_size + 1` and
`OW = width - filter_size + 1`, the shape the source asserts.
`output[f, i, j] = np.sum(input[i:i+k, j:j+k] * conv_filter[f]) + bias[f]`. -/
def forward {F kk OH OW : ℕ}
    (conv_filter : Fin F → Fin (kk + 1) → Fin (kk + 1) → α) (bias : Fin F → α)
    (input : Fin (OH + kk) → Fin (OW + kk) → α) : Fin F → Fin OH → Fin OW → α :=
  fun f i j =>
    (∑ a : Fin (kk + 1), ∑ b : Fin (kk + 1),
      input ⟨i.val + a.val, by have := i.isLt; have := a.isLt; omega⟩
            ⟨j.val + b.val, by have := j.isLt; have := b.isLt; omega⟩ *
        conv_filter f a b) + bias f

/-- `ConvolutionLayer.backward` (q1.py lines 73–105).  Returns the triple
(`input_error`, updated `conv_filter`, updated `bias`).  The input error at
`(i, j)` accumulates, over every filter `f`, the product of the zero-padded
output error (pad width `filter_size - 1 = kk`) at `(i + a, j + b)` with the
180°-rotated kernel at `(a, b)`; the filter/bias gradients are accumulated over
all output positions and applied in place as plain gradient descent. -/
def backward {F kk OH OW : ℕ}
    (conv_filter : Fin F → Fin (kk + 1) → Fin (kk + 1) → α) (bias : Fin F → α)
    (input : Fin (OH + kk) → Fin (OW + kk) → α)
    (output_error : Fin F → Fin OH → Fin OW → α) (learning_rate : α) :
    (Fin (OH + kk) → Fin (OW + kk) → α) ×
      (Fin F → Fin (kk + 1) → Fin (kk + 1) → α) × (Fin F → α) :=
  (fun i j =>
      ∑ f : Fin F, ∑ a : Fin (kk + 1), ∑ b : Fin (kk + 1),
        npPad kk (output_error f) (i.val + a.val) (j.val + b.val) *
          rot180 (conv_filter f) a b,
   fun f a b =>
      conv_filter f a b -
        learning_rate * ∑ i : Fin OH, ∑ j : Fin OW,
          input ⟨i.val + a.val, by have := i.isLt; have := a.isLt; omega⟩
                ⟨j.val + b.val, by have := j.isLt; have := b.isLt; omega⟩ *
            output_error f i j,
   fun f =>
      bias f - learning_rate * ∑ i : Fin OH, ∑ j : Fin OW, output_error f i j)

end ConvolutionLayer

/-- The `k × k` input patch anchored at output position `(i, j)`
(`input[i:i+k, j:j+k]` of the source). -/
def specPatch {kk OH OW : ℕ} (input : Fin (OH + kk) → Fin (OW + kk) → α)
    (i : Fin OH) (j : Fin OW) : Fin (kk + 1) → Fin (kk + 1) → α :=
  fun a b =>
    input ⟨i.val + a.val, by have := i.isLt; have := a.isLt; omega⟩
          ⟨j.val + b.val, by have := j.isLt; have := b.isLt; omega⟩

/-- Elementwise product-sum of two equally shaped matrices
(`np.sum(x * y)`). -/
def prodSum {p q : ℕ} (x y : Fin p → Fin q → α) : α :=
  ∑ a : Fin p, ∑ b : Fin q, x a b * y a b

/-- Spec description of the convolution backward input gradient: cross-correlate
a kernel with a ℕ-indexed image on an `(OH + kk) × (OW + kk)` grid. -/
def correlate2d {kk OH OW : ℕ} (kernel : Fin (kk + 1) → Fin (kk + 1) → α)
    (img : ℕ → ℕ → α) : Fin (OH + kk) → Fin (OW + kk) → α :=
  fun i j =>
    ∑ a : Fin (kk + 1), ∑ b : Fin (kk + 1),
      img (i.val + a.val) (j.val + b.val) * kernel a b

/-- Spec description (C1): the input gradient is the correlation of the
180°-rotated kernel with the output gradient zero-padded by
`filter_size - 1 = kk` on each side, summed over filters. -/
def specConvInputGrad {F kk OH OW : ℕ}
    (conv_filter : Fin F → Fin (kk + 1) → Fin (kk + 1) → α)
    (output_error : Fin F → Fin OH → Fin OW → α) :
    Fin (OH + kk) → Fin (OW + kk) → α :=
  fun i j =>
    ∑ f : Fin F,
      correlate2d (rot180 (conv_filter f)) (npPad kk (output_error f)) i j

namespace FCLayer

/-- `FCLayer.forward` (q1.py lines 292–308):
`np.dot(conv_filter.T, input) + bias` on column vectors. -/
def forward {ninput noutput : ℕ} (conv_filter : Fin ninput → Fin noutput → α)
    (bias : Fin noutput → Fin 1 → α) (input : Fin ninput → Fin 1 → α) :
    Fin noutput → Fin 1 → α :=
  fun o c => (∑ i : Fin ninput, conv_filter i o * input i c) + bias o c

/-- `FCLayer.backward` (q1.py lines 310–330).  Returns the triple
(`input_error = conv_filter @ output_error`, updated `conv_filter`, updated
`bias`), the weight gradient being `input @ output_error.T` and the bias
gradient `output_error` itself, applied in place by gradient descent. -/
def backward {ninput noutput : ℕ} (conv_filter : Fin ninput → Fin noutput → α)
    (bias : Fin noutput → Fin 1 → α) (input : Fin ninput → Fin 1 → α)
    (output_error : Fin noutput → Fin 1 → α) (learning_rate : α) :
    (Fin ninput → Fin 1 → α) × (Fin ninput → Fin noutput → α) ×
      (Fin noutput → Fin 1 → α) :=
  (fun i c => ∑ o : Fin noutput, conv_filter i o * output_error o c,
   fun i o =>
      conv_filter i o -
        learning_rate * ∑ c : Fin 1, input i c * output_error o c,
   fun o c => bias o c - learning_rate * output_error o c)

end FCLayer

/-- Position `i * p + a` inside a length-`n * p` axis: block `i`, offset `a`. -/
def blockPos {n p : ℕ} (i : Fin n) (a : Fin p) : Fin (n * p) :=
  ⟨i.val * p + a.val, by
    have ha := a.isLt
    calc i.val * p + a.val < i.val * p + p := by omega
      _ = (i.val + 1) * p := by ring
      _ ≤ n * p := Nat.mul_le_mul_right p i.isLt⟩

namespace ReLULayer

/-- `ReLULayer.forward` (q1.py lines 115–132): `np.maximum(input, 0)`. -/
def forward {S : Type} (input : S → α) : S → α := fun s => max (input s) 0

/-- `ReLULayer.backward` (q1.py lines 134–154): gate the upstream gradient by
the 0/1 mask of strictly positive cached inputs. -/
def backward {S : Type} (input output_error : S → α) : S → α :=
  fun s => output_error s * (if 0 < input s then 1 else 0)

end ReLULayer

namespace MaxPoolingLayer

/-- The `p × p` block of channel `f` at block position `(i, j)`, flattened in
row-major order exactly as numpy views
`input[f, i*p:(i+1)*p, j*p:(j+1)*p]`. -/
def region {F p oh ow : ℕ} (input : Fin F → Fin (oh * p) → Fin (ow * p) → α)
    (f : Fin F) (i : Fin oh) (j : Fin ow) : Fin (p * p) → α :=
  fun m =>
    have hp : 0 < p := by
      rcases Nat.eq_zero_or_pos p with h | h
      · exact absurd m.isLt (by simp [h])
      · exact h
    input f
      ⟨i.val * p + m.val / p, by
        have h1 : m.val / p < p := by
          rw [Nat.div_lt_iff_lt_mul hp]
          exact m.isLt
        calc i.val * p + m.val / p < i.val * p + p := by omega
          _ = (i.val + 1) * p := by ring
          _ ≤ oh * p := Nat.mul_le_mul_right p i.isLt⟩
      ⟨j.val * p + m.val % p, by
        have h1 : m.val % p < p := Nat.mod_lt _ hp
        calc j.val * p + m.val % p < j.val * p + p := by omega
          _ = (j.val + 1) * p := by ring
          _ ≤ ow * p := Nat.mul_le_mul_right p j.isLt⟩

/-- `MaxPoolingLayer.forward` (q1.py lines 168–195): each output entry is
`np.max` of its `p × p` block. -/
def forward {F p oh ow : ℕ} (hp : 0 < p)
    (input : Fin F → Fin (oh * p) → Fin (ow * p) → α) :
    Fin F → Fin oh → Fin ow → α :=
  fun f i j => npMax (Nat.mul_pos hp hp) (region input f i j)

/-- `MaxPoolingLayer.backward` (q1.py lines 197–224): route each upstream
gradient scalar to the block position selected by
`np.unravel_index(np.argmax(block), (p, p))` — the flat argmax `m` maps to the
in-block coordinates `(m / p, m % p)` — and zero elsewhere. -/
def backward {F p oh ow : ℕ} (hp : 0 < p)
    (input : Fin F → Fin (oh * p) → Fin (ow * p) → α)
    (output_error : Fin F → Fin oh → Fin ow → α) :
    Fin F → Fin (oh * p) → Fin (ow * p) → α :=
  fun f r c =>
    let i : Fin oh := ⟨r.val / p, by rw [Nat.div_lt_iff_lt_mul hp]; exact r.isLt⟩
    let j : Fin ow := ⟨c.val / p, by rw [Nat.div_lt_iff_lt_mul hp]; exact c.isLt⟩
    let m : Fin (p * p) := npArgmax (Nat.mul_pos hp hp) (region input f i j)
    if r.val % p = m.val / p ∧ c.val % p = m.val % p then output_error f i j
    else 0

end MaxPoolingLayer

namespace SoftmaxLayer

/-- `SoftmaxLayer.forward` (q1.py lines 340–358), with the exponential passed
as the parameter `E` (the source uses `np.exp`; the theorems instantiate
`E := Real.exp`): subtract the column maximum, apply `E`, normalize by the sum.
The input is a single column of `n` entries, so the per-column maximum of
`np.max(input, axis=0)` is the maximum over all entries. -/
def forward {n : ℕ} (E : α → α) (hn : 0 < n) (input : Fin n → α) : Fin n → α :=
  fun i =>
    E (input i - npMax hn input) / ∑ j : Fin n, E (input j - npMax hn input)

/-- `SoftmaxLayer.backward` (q1.py lines 360–377):
`self.output * output_error - self.output.T @ output_error * self.output`,
the Jacobian-vector product on a single column. -/
def backward {n : ℕ} (output output_error : Fin n → Fin 1 → α) :
    Fin n → Fin 1 → α :=
  fun i c =>
    output i c * output_error i c -
      (∑ m : Fin n, output m 0 * output_error m 0) * output i c

end SoftmaxLayer

/-- The initial output gradient of `train` (q1.py lines 386–388):
`output_error = np.zeros(out.shape); output_error[label] = -1/out[label]`. -/
def outputErrorInit {n : ℕ} (out : Fin n → Fin 1 → α) (label : Fin n) :
    Fin n → Fin 1 → α :=
  fun i c => if i = label then -1 / out label c else 0

/-- The scalar loss of `train` (q1.py line 395):
`loss = -np.sum(np.log(out[label]))`, with the logarithm passed as the
parameter `lg` (the source uses `np.log`; the theorems instantiate
`lg := Real.log`).  `out[label]` is the one-entry row at the true label. -/
def lossAt {n : ℕ} (lg : α → α) (out : Fin n → Fin 1 → α) (label : Fin n) : α :=
  -(∑ c : Fin 1, lg (out label c))

/-- The accuracy flag of `train` (q1.py line 396):
`acc = 1 if np.argmax(out) == label else 0`.  `np.argmax` flattens the
`(n, 1)` array row-major, so flat index `m` reads entry `out[m, 0]`. -/
def accAt {n : ℕ} (out : Fin n → Fin 1 → α) (label : Fin n) : ℕ :=
  if (npArgmax label.pos fun m => out m 0).val = label.val then 1 else 0

/-- `train` (q1.py lines 380–398) for the architecture built in the script:
convolution (filter size `kk + 1`), ReLU, `p × p` max pooling, flatten, fully
connected layer to `n` classes, softmax; image of shape
`(ph*p + kk) × (pw*p + kk)`.  Normalizes the image (`image / 255 - 0.5`), runs
every forward pass in order, seeds the output gradient at the true label, runs
every backward pass in reverse order threading the learning rate, and returns
`(loss, acc, updated conv filters, updated conv bias, updated FC weights,
updated FC bias)`.  `E` and `lg` stand for `np.exp` / `np.log`. -/
def trainStep {F kk ph pw p n : ℕ} (E lg : α → α) (hp : 0 < p)
    (conv_filter : Fin F → Fin (kk + 1) → Fin (kk + 1) → α) (cbias : Fin F → α)
    (w : Fin (F * ph * pw) → Fin n → α) (fbias : Fin n → Fin 1 → α)
    (image : Fin (ph * p + kk) → Fin (pw * p + kk) → α) (label : Fin n)
    (lr : α) :
    α × ℕ × (Fin F → Fin (kk + 1) → Fin (kk + 1) → α) × (Fin F → α) ×
      (Fin (F * ph * pw) → Fin n → α) × (Fin n → Fin 1 → α) :=
  let out0 : Fin (ph * p + kk) → Fin (pw * p + kk) → α :=
    fun r c => image r c / 255 - 1 / 2
  let convOut := ConvolutionLayer.forward conv_filter cbias out0
  let reluOut : Fin F → Fin (ph * p) → Fin (pw * p) → α :=
    fun f r c => ReLULayer.forward
      (fun t : Fin F × Fin (ph * p) × Fin (pw * p) => convOut t.1 t.2.1 t.2.2)
      (f, r, c)
  let poolOut := MaxPoolingLayer.forward hp reluOut
  let flatOut := FlattenLayer.forward poolOut
  let fcOut := FCLayer.forward w fbias flatOut
  let smOut : Fin n → Fin 1 → α :=
    fun i _ => SoftmaxLayer.forward E label.pos (fun m => fcOut m 0) i
  let err0 := outputErrorInit smOut label
  let smBack := SoftmaxLayer.backward smOut err0
  let fcBack := FCLayer.backward w fbias flatOut smBack lr
  let flatBack := FlattenLayer.backward fcBack.1
  let poolBack := MaxPoolingLayer.backward hp reluOut flatBack
  let reluBack : Fin F → Fin (ph * p) → Fin (pw * p) → α :=
    fun f r c => ReLULayer.backward
      (fun t : Fin F × Fin (ph * p) × Fin (pw * p) => convOut t.1 t.2.1 t.2.2)
      (fun t => poolBack t.1 t.2.1 t.2.2) (f, r, c)
  let convBack := ConvolutionLayer.backward conv_filter cbias out0 reluBack lr
  (lossAt lg smOut label, accAt smOut label,
   convBack.2.1, convBack.2.2, fcBack.2.1, fcBack.2.2)

/-- Concrete single-channel `1 × 2 × 2` rational input for the pooling layer. -/
def samplePoolInput : Fin 1 → Fin (1 * 2) → Fin (1 * 2) → ℚ :=
  fun _ r c => (r.val * 2 + c.val : ℚ)

/-- Concrete `1 × 1 × 1` rational pooled gradient. -/
def samplePoolGrad : Fin 1 → Fin 1 → Fin 1 → ℚ := fun _ _ _ => 5

/-- Concrete `2 × 2` rational input used to evaluate the embedding. -/
def sampleInput2 : Fin (1 + 1) → Fin (1 + 1) → ℚ := fun i j => (i.val + j.val : ℚ)

/-- Concrete single `2 × 2` kernel used to evaluate the embedding. -/
def sampleFilter2 : Fin 1 → Fin (1 + 1) → Fin (1 + 1) → ℚ := fun _ _ _ => 1

end CNN

-- THEOREMS

namespace CNN

variable {α : Type} [LinearOrderedField α]

/-- Membership facts for `npArgmax`: it attains the maximum. -/
theorem npArgmax_is_max {n : ℕ} (hn : 0 < n) (v : Fin n → α) (j : Fin n) :
    v j ≤ v (npArgmax hn v) := by
  have hmem := Finset.min'_mem (Finset.univ.filter fun i => ∀ j, v j ≤ v i)
    (by
      obtain ⟨i, -, hi⟩ :=
        Finset.exists_max_image Finset.univ v ⟨⟨0, hn⟩, Finset.mem_univ _⟩
      exact ⟨i, Finset.mem_filter.2 ⟨Finset.mem_univ _, fun j => hi j (Finset.mem_univ _)⟩⟩)
  exact (Finset.mem_filter.1 hmem).2 j

/-- `npArgmax` is the least maximizer: any index attaining the maximum is
not smaller. -/
theorem npArgmax_le_of_max {n : ℕ} (hn : 0 < n) (v : Fin n → α) (j : Fin n)
    (hj : ∀ t, v t ≤ v j) : npArgmax hn v ≤ j :=
  Finset.min'_le _ j (Finset.mem_filter.2 ⟨Finset.mem_univ _, hj⟩)

/-- Strictly earlier indices than `npArgmax` hold strictly smaller values. -/
theorem lt_of_lt_npArgmax {n : ℕ} (hn : 0 < n) (v : Fin n → α) (j : Fin n)
    (hj : j < npArgmax hn v) : v j < v (npArgmax hn v) := by
  rcases lt_or_eq_of_le (npArgmax_is_max hn v j) with h | h
  · exact h
  · exact absurd (npArgmax_le_of_max hn v j fun t => h ▸ npArgmax_is_max hn v t)
      (not_le.2 hj)

/-- C3 : `split_data` returns a train index set of size exactly
`⌊N * r⌋`, a validation index set of size `N` minus that, the two sets are
disjoint, and their union is the full index range. -/
theorem split_data_partition (N : ℕ) (r : ℚ) (hr0 : 0 < r) (hr1 : r ≤ 1)
    (draw : Fin (numTrainSamples N r) ↪ Fin N) :
    (split_data N r draw).1.card = ⌊(N : ℚ) * r⌋₊ ∧
    (split_data N r draw).2.card = N - ⌊(N : ℚ) * r⌋₊ ∧
    Disjoint (split_data N r draw).1 (split_data N r draw).2 ∧
    (split_data N r draw).1 ∪ (split_data N r draw).2 = Finset.univ := by
  have hcard : (Finset.univ.map draw).card = ⌊(N : ℚ) * r⌋₊ := by
    rw [Finset.card_map, Finset.card_univ, Fintype.card_fin]
    rfl
  refine ⟨hcard, ?_, ?_, ?_⟩
  · rw [split_data, Finset.card_sdiff (Finset.subset_univ _), Finset.card_univ,
      Fintype.card_fin, hcard]
  · exact Finset.disjoint_sdiff
  · exact Finset.union_sdiff_of_subset (Finset.subset_univ _)

/-- Witness for C3 at `N = 5`, `r = 4/5`. -/
theorem split_data_partition_witness :
    0 < (4 / 5 : ℚ) ∧ (4 / 5 : ℚ) ≤ 1 ∧
    ((split_data 5 (4 / 5) (Fin.castLEEmb (by norm_num [numTrainSamples]))).1.card
        = ⌊(5 : ℚ) * (4 / 5)⌋₊ ∧
      (split_data 5 (4 / 5) (Fin.castLEEmb (by norm_num [numTrainSamples]))).2.card
        = 5 - ⌊(5 : ℚ) * (4 / 5)⌋₊ ∧
      Disjoint (split_data 5 (4 / 5) (Fin.castLEEmb (by norm_num [numTrainSamples]))).1
        (split_data 5 (4 / 5) (Fin.castLEEmb (by norm_num [numTrainSamples]))).2 ∧
      (split_data 5 (4 / 5) (Fin.castLEEmb (by norm_num [numTrainSamples]))).1 ∪
        (split_data 5 (4 / 5) (Fin.castLEEmb (by norm_num [numTrainSamples]))).2
        = (Finset.univ : Finset (Fin 5))) :=
  ⟨by norm_num, by norm_num,
    split_data_partition 5 (4 / 5) (by norm_num) (by norm_num) _⟩

/-- C4 : flatten forward then backward with the gradient untouched reproduces
the original 3-D tensor exactly, and forward places entry `(i,j,k)` at the
row-major flat position, so element order is preserved in both directions. -/
theorem flatten_roundtrip {a b c : ℕ} (x : Fin a → Fin b → Fin c → α) :
    FlattenLayer.backward (FlattenLayer.forward x) = x ∧
    ∀ (i : Fin a) (j : Fin b) (k : Fin c),
      FlattenLayer.forward x (rowMajorIdx i j k) 0 = x i j k := by
  have key : ∀ (i : Fin a) (j : Fin b) (k : Fin c),
      FlattenLayer.forward x (rowMajorIdx i j k) 0 = x i j k := by
    intro i j k
    have hc : 0 < c := k.pos
    have hb : 0 < b := j.pos
    have hval : (rowMajorIdx i j k).val = (b * c) * i.val + (j.val * c + k.val) := by
      simp only [rowMajorIdx]
      ring
    have hrem : j.val * c + k.val < b * c := by
      calc j.val * c + k.val < j.val * c + c := by omega
        _ = (j.val + 1) * c := by ring
        _ ≤ b * c := Nat.mul_le_mul_right c j.isLt
    have hdiv : (rowMajorIdx i j k).val / (b * c) = i.val := by
      rw [hval, Nat.mul_add_div (Nat.mul_pos hb hc), Nat.div_eq_of_lt hrem, Nat.add_zero]
    have hmod : (rowMajorIdx i j k).val % (b * c) = j.val * c + k.val := by
      rw [hval, Nat.mul_add_mod, Nat.mod_eq_of_lt hrem]
    have hmod2 : (j.val * c + k.val) / c = j.val := by
      rw [Nat.mul_comm j.val c, Nat.mul_add_div hc, Nat.div_eq_of_lt k.isLt, Nat.add_zero]
    have hmod3 : (j.val * c + k.val) % c = k.val := by
      rw [Nat.mul_comm j.val c, Nat.mul_add_mod, Nat.mod_eq_of_lt k.isLt]
    simp only [FlattenLayer.forward, hdiv, hmod, hmod2, hmod3, Fin.eta]
  refine ⟨?_, key⟩
  funext i j k
  exact key i j k

/-- C7 : for a single-channel input of height `H = OH + kk` and width
`W = OW + kk`, both at least the filter size `k = kk + 1`, the convolution
forward pass yields, at each of the `F × OH × OW` output positions (and
`OH = H - k + 1`, `OW = W - k + 1`, the asserted output shape), the elementwise
product-sum of the corresponding `k × k` input patch with that filter's kernel
plus that filter's scalar bias. -/
theorem conv_forward_patch_prodSum {F kk OH OW : ℕ} (hOH : 0 < OH) (hOW : 0 < OW)
    (conv_filter : Fin F → Fin (kk + 1) → Fin (kk + 1) → α) (bias : Fin F → α)
    (input : Fin (OH + kk) → Fin (OW + kk) → α) :
    (∀ (f : Fin F) (i : Fin OH) (j : Fin OW),
      ConvolutionLayer.forward conv_filter bias input f i j =
        prodSum (specPatch input i j) (conv_filter f) + bias f) ∧
    (OH + kk) - (kk + 1) + 1 = OH ∧ (OW + kk) - (kk + 1) + 1 = OW := by
  refine ⟨fun f i j => rfl, by omega, by omega⟩

/-- Witness for C7 at `F = 1`, filter size `2`, input `2 × 2` over `ℚ`. -/
theorem conv_forward_patch_prodSum_witness :
    0 < 1 ∧
    ((∀ (f : Fin 1) (i : Fin 1) (j : Fin 1),
        ConvolutionLayer.forward sampleFilter2 (fun _ => 2) sampleInput2 f i j =
          prodSum (specPatch sampleInput2 i j) (sampleFilter2 f) + 2) ∧
      (1 + 1) - (1 + 1) + 1 = 1 ∧ (1 + 1) - (1 + 1) + 1 = 1) :=
  ⟨by decide,
    conv_forward_patch_prodSum (by decide) (by decide)
      sampleFilter2 (fun _ => 2) sampleInput2⟩

/-- Fubini for triple nested sums over finite index types. -/
lemma sum3_comm {A B C : Type} [Fintype A] [Fintype B] [Fintype C]
    (h : A → B → C → α) :
    ∑ a : A, ∑ b : B, ∑ c : C, h a b c = ∑ c : C, ∑ a : A, ∑ b : B, h a b c :=
  calc ∑ a : A, ∑ b : B, ∑ c : C, h a b c
      = ∑ a : A, ∑ c : C, ∑ b : B, h a b c :=
        Finset.sum_congr rfl fun _ _ => Finset.sum_comm
    _ = ∑ c : C, ∑ a : A, ∑ b : B, h a b c := Finset.sum_comm

/-- Fubini for quadruple nested sums over finite index types. -/
lemma sum4_comm {A B C D : Type} [Fintype A] [Fintype B] [Fintype C] [Fintype D]
    (h : A → B → C → D → α) :
    ∑ a : A, ∑ b : B, ∑ c : C, ∑ d : D, h a b c d
      = ∑ c : C, ∑ d : D, ∑ a : A, ∑ b : B, h a b c d :=
  calc ∑ a : A, ∑ b : B, ∑ c : C, ∑ d : D, h a b c d
      = ∑ a : A, ∑ c : C, ∑ b : B, ∑ d : D, h a b c d :=
        Finset.sum_congr rfl fun _ _ => Finset.sum_comm
    _ = ∑ c : C, ∑ a : A, ∑ b : B, ∑ d : D, h a b c d := Finset.sum_comm
    _ = ∑ c : C, ∑ a : A, ∑ d : D, ∑ b : B, h a b c d :=
        Finset.sum_congr rfl fun _ _ =>
          Finset.sum_congr rfl fun _ _ => Finset.sum_comm
    _ = ∑ c : C, ∑ d : D, ∑ a : A, ∑ b : B, h a b c d :=
        Finset.sum_congr rfl fun _ _ => Finset.sum_comm

/-- Evaluating a zero-extended array inside its index range. -/
lemma zext_apply {OH OW : ℕ} (g : Fin OH → Fin OW → α) (i : Fin OH) (j : Fin OW) :
    zext g i.val j.val = g i j := by
  simp [zext]

/-- A zero-extended array vanishes outside its index range. -/
lemma zext_eq_zero {OH OW : ℕ} (g : Fin OH → Fin OW → α) {u v : ℕ}
    (h : OH ≤ u ∨ OW ≤ v) : zext g u v = 0 := by
  unfold zext
  rw [dif_neg]
  omega

/-- Padding re-expressed through the zero extension of the unpadded array. -/
lemma npPad_eq_zext {OH OW : ℕ} (kk : ℕ) (g : Fin OH → Fin OW → α) (p q : ℕ) :
    npPad kk g p q = if kk ≤ p ∧ kk ≤ q then zext g (p - kk) (q - kk) else 0 := by
  unfold npPad zext
  split_ifs <;> first | rfl | (exfalso; omega)

/-- The 180°-rotated kernel re-expressed through the zero extension. -/
lemma rot180_eq_zext {kk : ℕ} (ker : Fin (kk + 1) → Fin (kk + 1) → α)
    (a b : Fin (kk + 1)) :
    rot180 ker a b = zext ker (kk - a.val) (kk - b.val) := by
  unfold rot180 zext
  rw [dif_pos ⟨by omega, by omega⟩]

/-- Reversing both indices of a doubly indexed sum over `{0, …, kk}`. -/
lemma sum2_rev {kk : ℕ} (H : ℕ → ℕ → α) :
    (∑ a : Fin (kk + 1), ∑ b : Fin (kk + 1), H a.val b.val)
      = ∑ a : Fin (kk + 1), ∑ b : Fin (kk + 1), H (kk - a.val) (kk - b.val) :=
  calc (∑ a : Fin (kk + 1), ∑ b : Fin (kk + 1), H a.val b.val)
      = ∑ a : Fin (kk + 1), ∑ b : Fin (kk + 1),
          H (Fin.revPerm a).val (Fin.revPerm b).val :=
        ((Equiv.sum_comp Fin.revPerm
            (fun a : Fin (kk + 1) => ∑ b : Fin (kk + 1), H a.val b.val)).symm.trans
          (Finset.sum_congr rfl fun a _ =>
            (Equiv.sum_comp Fin.revPerm
              (fun b : Fin (kk + 1) => H (Fin.revPerm a).val b.val)).symm))
    _ = ∑ a : Fin (kk + 1), ∑ b : Fin (kk + 1), H (kk - a.val) (kk - b.val) :=
        Finset.sum_congr rfl fun a _ => Finset.sum_congr rfl fun b _ => by
          rw [show (Fin.revPerm a).val = kk - a.val from by
                rw [Fin.revPerm_apply, Fin.val_rev]; omega,
              show (Fin.revPerm b).val = kk - b.val from by
                rw [Fin.revPerm_apply, Fin.val_rev]; omega]

/-- Index substitution `u = i - a` for a sum over the padded extent: summing a
shifted, zero-extended summand over `{0, …, OH + kk - 1}` equals summing the
unshifted summand over `{0, …, OH - 1}`. -/
lemma shiftSum (D : ℕ → ℕ → α) (a kk OH : ℕ) (ha : a ≤ kk)
    (hD : ∀ i u, OH ≤ u → D i u = 0) :
    ∑ i ∈ Finset.range (OH + kk), (if a ≤ i then D i (i - a) else 0)
      = ∑ u ∈ Finset.range OH, D (u + a) u := by
  have h1 : ∑ i ∈ Finset.range (OH + kk), (if a ≤ i then D i (i - a) else 0)
      = ∑ i ∈ Finset.Ico a (OH + kk), D i (i - a) := by
    rw [Finset.range_eq_Ico,
      ← Finset.sum_Ico_consecutive _ (Nat.zero_le a) (by omega)]
    have hz : ∑ i ∈ Finset.Ico 0 a, (if a ≤ i then D i (i - a) else 0) = 0 :=
      Finset.sum_eq_zero fun i hi => by
        rw [Finset.mem_Ico] at hi
        rw [if_neg (by omega)]
    rw [hz, zero_add]
    exact Finset.sum_congr rfl fun i hi => if_pos (Finset.mem_Ico.1 hi).1
  rw [h1, Finset.sum_Ico_eq_sum_range]
  have h2 : ∑ i ∈ Finset.range (OH + kk - a), D (a + i) (a + i - a)
      = ∑ i ∈ Finset.range (OH + kk - a), D (i + a) i :=
    Finset.sum_congr rfl fun i _ => by rw [Nat.add_comm a i, Nat.add_sub_cancel]
  rw [h2]
  refine (Finset.sum_subset ?_ ?_).symm
  · intro u hu
    rw [Finset.mem_range] at hu ⊢
    omega
  · intro u hu hnu
    rw [Finset.mem_range] at hu hnu
    exact hD (u + a) u (by omega)

/-- Core of the transpose property, one kernel offset at a time: testing the
input against the padded-and-shifted output gradient equals testing the
correspondingly shifted input against the raw output gradient. -/
lemma conv_adjoint_core {kk OH OW : ℕ} (a b : Fin (kk + 1))
    (x : Fin (OH + kk) → Fin (OW + kk) → α) (g : Fin OH → Fin OW → α) :
    (∑ i : Fin (OH + kk), ∑ j : Fin (OW + kk),
        x i j * npPad kk g (i.val + (kk - a.val)) (j.val + (kk - b.val)))
      = ∑ u : Fin OH, ∑ v : Fin OW,
          x ⟨u.val + a.val, by have := u.isLt; have := a.isLt; omega⟩
            ⟨v.val + b.val, by have := v.isLt; have := b.isLt; omega⟩ * g u v := by
  have ha := a.isLt
  have hb := b.isLt
  have hS : ∀ i j : ℕ,
      zext x i j * npPad kk g (i + (kk - a.val)) (j + (kk - b.val))
        = if a.val ≤ i then
            (if b.val ≤ j then zext x i j * zext g (i - a.val) (j - b.val) else 0)
          else 0 := by
    intro i j
    rw [npPad_eq_zext]
    split_ifs <;>
      first
        | (exfalso; omega)
        | rw [show i + (kk - a.val) - kk = i - a.val from by omega,
              show j + (kk - b.val) - kk = j - b.val from by omega]
        | exact mul_zero _
  calc (∑ i : Fin (OH + kk), ∑ j : Fin (OW + kk),
          x i j * npPad kk g (i.val + (kk - a.val)) (j.val + (kk - b.val)))
      = ∑ i ∈ Finset.range (OH + kk), ∑ j ∈ Finset.range (OW + kk),
          zext x i j * npPad kk g (i + (kk - a.val)) (j + (kk - b.val)) := by
        rw [← Fin.sum_univ_eq_sum_range (fun i => ∑ j ∈ Finset.range (OW + kk),
              zext x i j * npPad kk g (i + (kk - a.val)) (j + (kk - b.val)))
            (OH + kk)]
        refine Finset.sum_congr rfl fun i _ => ?_
        rw [← Fin.sum_univ_eq_sum_range (fun j =>
              zext x i.val j * npPad kk g (i.val + (kk - a.val)) (j + (kk - b.val)))
            (OW + kk)]
        exact Finset.sum_congr rfl fun j _ => by rw [zext_apply]
    _ = ∑ i ∈ Finset.range (OH + kk),
          (if a.val ≤ i then
            ∑ j ∈ Finset.range (OW + kk),
              (if b.val ≤ j then zext x i j * zext g (i - a.val) (j - b.val) else 0)
          else 0) := by
        refine Finset.sum_congr rfl fun i _ => ?_
        rw [Finset.sum_congr rfl fun j (_ : j ∈ Finset.range (OW + kk)) => hS i j]
        split_ifs with h
        · rfl
        · exact Finset.sum_eq_zero fun j _ => rfl
    _ = ∑ u ∈ Finset.range OH,
          ∑ j ∈ Finset.range (OW + kk),
            (if b.val ≤ j then zext x (u + a.val) j * zext g u (j - b.val) else 0) :=
        shiftSum (fun i u => ∑ j ∈ Finset.range (OW + kk),
            (if b.val ≤ j then zext x i j * zext g u (j - b.val) else 0))
          a.val kk OH (by omega)
          (fun i u hu => Finset.sum_eq_zero fun j _ => by
            rw [zext_eq_zero g (Or.inl hu), mul_zero, ite_self])
    _ = ∑ u ∈ Finset.range OH, ∑ v ∈ Finset.range OW,
          zext x (u + a.val) (v + b.val) * zext g u v :=
        Finset.sum_congr rfl fun u _ =>
          shiftSum (fun j v => zext x (u + a.val) j * zext g u v) b.val kk OW
            (by omega)
            (fun j v hv => show zext x (u + a.val) j * zext g u v = 0 by
              rw [zext_eq_zero g (Or.inr hv), mul_zero])
    _ = ∑ u : Fin OH, ∑ v : Fin OW,
          x ⟨u.val + a.val, by have := u.isLt; have := a.isLt; omega⟩
            ⟨v.val + b.val, by have := v.isLt; have := b.isLt; omega⟩ * g u v := by
        rw [← Fin.sum_univ_eq_sum_range (fun u => ∑ v ∈ Finset.range OW,
              zext x (u + a.val) (v + b.val) * zext g u v) OH]
        refine Finset.sum_congr rfl fun u _ => ?_
        rw [← Fin.sum_univ_eq_sum_range (fun v =>
              zext x (u.val + a.val) (v + b.val) * zext g u.val v) OW]
        refine Finset.sum_congr rfl fun v _ => ?_
        rw [show zext x (u.val + a.val) (v.val + b.val)
              = x ⟨u.val + a.val, by have := u.isLt; have := a.isLt; omega⟩
                  ⟨v.val + b.val, by have := v.isLt; have := b.isLt; omega⟩ from
            zext_apply x ⟨u.val + a.val, by have := u.isLt; have := a.isLt; omega⟩
              ⟨v.val + b.val, by have := v.isLt; have := b.isLt; omega⟩,
          zext_apply g u v]

/-- Transpose property for a single filter: testing any input against the
backward correlation of the rotated kernel with the padded output gradient
equals testing the forward correlation of the input against the output
gradient. -/
lemma conv_adjoint_single {kk OH OW : ℕ}
    (ker : Fin (kk + 1) → Fin (kk + 1) → α)
    (x : Fin (OH + kk) → Fin (OW + kk) → α) (g : Fin OH → Fin OW → α) :
    (∑ i : Fin (OH + kk), ∑ j : Fin (OW + kk),
        ∑ a : Fin (kk + 1), ∑ b : Fin (kk + 1),
          x i j * (npPad kk g (i.val + a.val) (j.val + b.val) * rot180 ker a b))
      = ∑ u : Fin OH, ∑ v : Fin OW, ∑ a : Fin (kk + 1), ∑ b : Fin (kk + 1),
          g u v *
            (x ⟨u.val + a.val, by have := u.isLt; have := a.isLt; omega⟩
               ⟨v.val + b.val, by have := v.isLt; have := b.isLt; omega⟩ *
              ker a b) := by
  calc (∑ i : Fin (OH + kk), ∑ j : Fin (OW + kk),
          ∑ a : Fin (kk + 1), ∑ b : Fin (kk + 1),
            x i j * (npPad kk g (i.val + a.val) (j.val + b.val) * rot180 ker a b))
      = ∑ a : Fin (kk + 1), ∑ b : Fin (kk + 1),
          ∑ i : Fin (OH + kk), ∑ j : Fin (OW + kk),
            x i j * (npPad kk g (i.val + a.val) (j.val + b.val) * rot180 ker a b) :=
        sum4_comm _
    _ = ∑ a : Fin (kk + 1), ∑ b : Fin (kk + 1),
          ∑ i : Fin (OH + kk), ∑ j : Fin (OW + kk),
            x i j * (npPad kk g (i.val + a.val) (j.val + b.val) *
              zext ker (kk - a.val) (kk - b.val)) := by
        simp only [rot180_eq_zext]
    _ = ∑ a : Fin (kk + 1), ∑ b : Fin (kk + 1),
          ∑ i : Fin (OH + kk), ∑ j : Fin (OW + kk),
            x i j * (npPad kk g (i.val + (kk - a.val)) (j.val + (kk - b.val)) *
              zext ker (kk - (kk - a.val)) (kk - (kk - b.val))) :=
        sum2_rev (fun p q =>
          ∑ i : Fin (OH + kk), ∑ j : Fin (OW + kk),
            x i j * (npPad kk g (i.val + p) (j.val + q) * zext ker (kk - p) (kk - q)))
    _ = ∑ a : Fin (kk + 1), ∑ b : Fin (kk + 1),
          (∑ u : Fin OH, ∑ v : Fin OW,
            x ⟨u.val + a.val, by have := u.isLt; have := a.isLt; omega⟩
              ⟨v.val + b.val, by have := v.isLt; have := b.isLt; omega⟩ * g u v) *
            ker a b := by
        refine Finset.sum_congr rfl fun a _ => Finset.sum_congr rfl fun b _ => ?_
        have h1 : kk - (kk - a.val) = a.val := by have := a.isLt; omega
        have h2 : kk - (kk - b.val) = b.val := by have := b.isLt; omega
        simp only [h1, h2, zext_apply]
        rw [← conv_adjoint_core a b x g, Finset.sum_mul]
        refine Finset.sum_congr rfl fun i _ => ?_
        rw [Finset.sum_mul]
        exact Finset.sum_congr rfl fun j _ => (mul_assoc _ _ _).symm
    _ = ∑ u : Fin OH, ∑ v : Fin OW, ∑ a : Fin (kk + 1), ∑ b : Fin (kk + 1),
          g u v *
            (x ⟨u.val + a.val, by have := u.isLt; have := a.isLt; omega⟩
               ⟨v.val + b.val, by have := v.isLt; have := b.isLt; omega⟩ *
              ker a b) := by
        simp only [Finset.sum_mul]
        rw [sum4_comm (fun (a : Fin (kk + 1)) (b : Fin (kk + 1))
              (u : Fin OH) (v : Fin OW) =>
            x ⟨u.val + a.val, by have := u.isLt; have := a.isLt; omega⟩
              ⟨v.val + b.val, by have := v.isLt; have := b.isLt; omega⟩ * g u v *
              ker a b)]
        refine Finset.sum_congr rfl fun u _ => Finset.sum_congr rfl fun v _ =>
          Finset.sum_congr rfl fun a _ => Finset.sum_congr rfl fun b _ => ?_
        ring

/-- C1 : the input gradient returned by the convolution backward pass (typed to
have exactly the cached input's shape, for every learning rate) equals the
correlation of the 180°-rotated kernel with the output gradient zero-padded by
`filter_size - 1` on each side, summed over filters; and it realizes the
transpose of the forward cross-correlation operator: pairing the input with the
returned gradient equals pairing the output gradient with the bias-free forward
output. -/
theorem conv_backward_transpose {F kk OH OW : ℕ}
    (conv_filter : Fin F → Fin (kk + 1) → Fin (kk + 1) → α) (bias : Fin F → α)
    (input : Fin (OH + kk) → Fin (OW + kk) → α)
    (output_error : Fin F → Fin OH → Fin OW → α) (learning_rate : α) :
    (ConvolutionLayer.backward conv_filter bias input output_error
        learning_rate).1 = specConvInputGrad conv_filter output_error ∧
    (∑ i : Fin (OH + kk), ∑ j : Fin (OW + kk),
        input i j *
          (ConvolutionLayer.backward conv_filter bias input output_error
            learning_rate).1 i j)
      = ∑ f : Fin F, ∑ u : Fin OH, ∑ v : Fin OW,
          output_error f u v *
            ConvolutionLayer.forward conv_filter (fun _ => 0) input f u v := by
  refine ⟨rfl, ?_⟩
  simp only [ConvolutionLayer.backward, ConvolutionLayer.forward, add_zero,
    Finset.mul_sum]
  rw [sum3_comm (fun (i : Fin (OH + kk)) (j : Fin (OW + kk)) (f : Fin F) =>
      ∑ a : Fin (kk + 1), ∑ b : Fin (kk + 1),
        input i j *
          (npPad kk (output_error f) (i.val + a.val) (j.val + b.val) *
            rot180 (conv_filter f) a b))]
  exact Finset.sum_congr rfl fun f _ =>
    conv_adjoint_single (conv_filter f) input (output_error f)

/-- Dividing a block position by the block size recovers the block index. -/
lemma blockPos_div {n p : ℕ} (hp : 0 < p) (i : Fin n) (a : Fin p) :
    (blockPos i a).val / p = i.val := by
  show (i.val * p + a.val) / p = i.val
  rw [Nat.mul_comm i.val p, Nat.mul_add_div hp, Nat.div_eq_of_lt a.isLt,
    Nat.add_zero]

/-- Reducing a block position modulo the block size recovers the offset. -/
lemma blockPos_mod {n p : ℕ} (i : Fin n) (a : Fin p) :
    (blockPos i a).val % p = a.val := by
  show (i.val * p + a.val) % p = a.val
  rw [Nat.mul_comm i.val p, Nat.mul_add_mod, Nat.mod_eq_of_lt a.isLt]

/-- Every flat index is the block position of its quotient and remainder. -/
lemma blockPos_divmod {p : ℕ} (hp : 0 < p) (m : Fin (p * p)) :
    blockPos (⟨m.val / p, by rw [Nat.div_lt_iff_lt_mul hp]; exact m.isLt⟩ : Fin p)
        (⟨m.val % p, Nat.mod_lt _ hp⟩ : Fin p) = m :=
  Fin.ext (Nat.div_add_mod' m.val p)

/-- Summing over a length-`n * p` axis through its block decomposition. -/
lemma sum_fin_blocks {n p : ℕ} (h : Fin (n * p) → α) :
    ∑ r : Fin (n * p), h r = ∑ i : Fin n, ∑ a : Fin p, h (blockPos i a) := by
  have hbij : Function.Bijective (fun x : Fin n × Fin p => blockPos x.1 x.2) := by
    rw [Fintype.bijective_iff_injective_and_card]
    constructor
    · rintro ⟨i, a⟩ ⟨i', a'⟩ hmk
      have hp : 0 < p := a.pos
      have hval : i.val * p + a.val = i'.val * p + a'.val := congrArg Fin.val hmk
      have h1 : i.val = i'.val := by
        rw [← blockPos_div hp i a, ← blockPos_div hp i' a']
        exact congrArg (fun t : Fin (n * p) => t.val / p) hmk
      rw [h1] at hval
      have h2 : a.val = a'.val := by omega
      exact Prod.ext (Fin.ext h1) (Fin.ext h2)
    · simp
  calc ∑ r : Fin (n * p), h r
      = ∑ x : Fin n × Fin p, h (blockPos x.1 x.2) :=
        (Fintype.sum_bijective _ hbij (fun x : Fin n × Fin p => h (blockPos x.1 x.2))
          h fun _ => rfl).symm
    _ = ∑ i : Fin n, ∑ a : Fin p, h (blockPos i a) := Fintype.sum_prod_type _

/-- Summing an indicator of a fixed in-block coordinate pair. -/
lemma sum_ite_pair {p : ℕ} (A B : Fin p) (G : α) :
    (∑ a : Fin p, ∑ b : Fin p,
        if a.val = A.val ∧ b.val = B.val then G else 0) = G := by
  have hinner : ∀ a : Fin p,
      (∑ b : Fin p, if a.val = A.val ∧ b.val = B.val then G else 0)
        = if a = A then G else 0 := by
    intro a
    by_cases h1 : a = A
    · subst h1
      rw [if_pos rfl]
      have hb : ∀ b : Fin p,
          (if a.val = a.val ∧ b.val = B.val then G else 0)
            = if b = B then G else 0 := by
        intro b
        by_cases h2 : b = B
        · subst h2
          simp
        · rw [if_neg fun hc => h2 (Fin.ext hc.2), if_neg h2]
      rw [Finset.sum_congr rfl fun b _ => hb b]
      simp
    · rw [if_neg h1]
      exact Finset.sum_eq_zero fun b _ =>
        if_neg fun hc => h1 (Fin.ext hc.1)
  rw [Finset.sum_congr rfl fun a _ => hinner a]
  simp

/-- Reading a pooling region at a block position reads the underlying input at
the corresponding absolute position. -/
lemma region_at_blockPos {F p oh ow : ℕ}
    (input : Fin F → Fin (oh * p) → Fin (ow * p) → α)
    (f : Fin F) (i : Fin oh) (j : Fin ow) (a b : Fin p) :
    MaxPoolingLayer.region input f i j (blockPos a b)
      = input f (blockPos i a) (blockPos j b) := by
  unfold MaxPoolingLayer.region
  simp only [blockPos_div a.pos, blockPos_mod]
  rfl

/-- Evaluating the max-pooling backward pass at a block position. -/
lemma maxpool_backward_at {F p oh ow : ℕ} (hp : 0 < p)
    (input : Fin F → Fin (oh * p) → Fin (ow * p) → α)
    (output_error : Fin F → Fin oh → Fin ow → α)
    (f : Fin F) (i : Fin oh) (j : Fin ow) (a b : Fin p) :
    MaxPoolingLayer.backward hp input output_error f (blockPos i a) (blockPos j b)
      = (if a.val = (npArgmax (Nat.mul_pos hp hp)
              (MaxPoolingLayer.region input f i j)).val / p ∧
            b.val = (npArgmax (Nat.mul_pos hp hp)
              (MaxPoolingLayer.region input f i j)).val % p
         then output_error f i j else 0) := by
  unfold MaxPoolingLayer.backward
  simp only [blockPos_div hp, blockPos_mod, Fin.eta]

/-- C2 : the max-pooling backward pass conserves the total gradient mass — the
sum of all entries of the returned input gradient equals the sum of all entries
of the output gradient — and each upstream scalar is routed to exactly the
position achieving its block maximum (first occurrence in row-major order on
ties), all other positions of the block receiving zero. -/
theorem maxpool_backward_conserves_and_routes {F p oh ow : ℕ} (hp : 0 < p)
    (input : Fin F → Fin (oh * p) → Fin (ow * p) → α)
    (output_error : Fin F → Fin oh → Fin ow → α) :
    (∑ f : Fin F, ∑ r : Fin (oh * p), ∑ c : Fin (ow * p),
        MaxPoolingLayer.backward hp input output_error f r c)
      = (∑ f : Fin F, ∑ i : Fin oh, ∑ j : Fin ow, output_error f i j) ∧
    ∀ (f : Fin F) (i : Fin oh) (j : Fin ow),
      ∃ a0 b0 : Fin p,
        MaxPoolingLayer.backward hp input output_error f
            (blockPos i a0) (blockPos j b0) = output_error f i j ∧
        (∀ a b : Fin p,
          input f (blockPos i a) (blockPos j b)
            ≤ input f (blockPos i a0) (blockPos j b0)) ∧
        (∀ a b : Fin p,
          input f (blockPos i a) (blockPos j b)
              = input f (blockPos i a0) (blockPos j b0) →
            a0.val * p + b0.val ≤ a.val * p + b.val) ∧
        (∀ a b : Fin p, ¬(a = a0 ∧ b = b0) →
          MaxPoolingLayer.backward hp input output_error f
            (blockPos i a) (blockPos j b) = 0) := by
  constructor
  · refine Finset.sum_congr rfl fun f _ => ?_
    rw [sum_fin_blocks (fun r => ∑ c : Fin (ow * p),
        MaxPoolingLayer.backward hp input output_error f r c)]
    calc ∑ i : Fin oh, ∑ a : Fin p, ∑ c : Fin (ow * p),
            MaxPoolingLayer.backward hp input output_error f (blockPos i a) c
        = ∑ i : Fin oh, ∑ a : Fin p, ∑ j : Fin ow, ∑ b : Fin p,
            (if a.val = (npArgmax (Nat.mul_pos hp hp)
                  (MaxPoolingLayer.region input f i j)).val / p ∧
                b.val = (npArgmax (Nat.mul_pos hp hp)
                  (MaxPoolingLayer.region input f i j)).val % p
             then output_error f i j else 0) :=
          Finset.sum_congr rfl fun i _ => Finset.sum_congr rfl fun a _ => by
            rw [sum_fin_blocks (fun c =>
                MaxPoolingLayer.backward hp input output_error f (blockPos i a) c)]
            exact Finset.sum_congr rfl fun j _ => Finset.sum_congr rfl fun b _ =>
              maxpool_backward_at hp input output_error f i j a b
      _ = ∑ i : Fin oh, ∑ j : Fin ow, ∑ a : Fin p, ∑ b : Fin p,
            (if a.val = (npArgmax (Nat.mul_pos hp hp)
                  (MaxPoolingLayer.region input f i j)).val / p ∧
                b.val = (npArgmax (Nat.mul_pos hp hp)
                  (MaxPoolingLayer.region input f i j)).val % p
             then output_error f i j else 0) :=
          Finset.sum_congr rfl fun i _ => Finset.sum_comm
      _ = ∑ i : Fin oh, ∑ j : Fin ow, output_error f i j :=
          Finset.sum_congr rfl fun i _ => Finset.sum_congr rfl fun j _ =>
            sum_ite_pair
              ⟨(npArgmax (Nat.mul_pos hp hp)
                  (MaxPoolingLayer.region input f i j)).val / p, by
                rw [Nat.div_lt_iff_lt_mul hp]
                exact (npArgmax (Nat.mul_pos hp hp)
                  (MaxPoolingLayer.region input f i j)).isLt⟩
              ⟨(npArgmax (Nat.mul_pos hp hp)
                  (MaxPoolingLayer.region input f i j)).val % p,
                Nat.mod_lt _ hp⟩
              (output_error f i j)
  · intro f i j
    have hmm : 0 < p * p := Nat.mul_pos hp hp
    set m : Fin (p * p) :=
      npArgmax hmm (MaxPoolingLayer.region input f i j) with hm
    have hdiv : m.val / p < p := by
      rw [Nat.div_lt_iff_lt_mul hp]
      exact m.isLt
    have hmod : m.val % p < p := Nat.mod_lt _ hp
    have hAB : blockPos (⟨m.val / p, hdiv⟩ : Fin p) (⟨m.val % p, hmod⟩ : Fin p)
        = m := Fin.ext (Nat.div_add_mod' m.val p)
    refine ⟨⟨m.val / p, hdiv⟩, ⟨m.val % p, hmod⟩, ?_, ?_, ?_, ?_⟩
    · rw [maxpool_backward_at hp input output_error f i j, ← hm]
      exact if_pos ⟨rfl, rfl⟩
    · intro a b
      have h1 := npArgmax_is_max hmm (MaxPoolingLayer.region input f i j)
        (blockPos a b)
      rw [← hm, ← hAB, region_at_blockPos, region_at_blockPos] at h1
      exact h1
    · intro a b hab
      have heq : MaxPoolingLayer.region input f i j (blockPos a b)
          = MaxPoolingLayer.region input f i j m := by
        rw [region_at_blockPos, ← hAB, region_at_blockPos, hab]
      have hmax : ∀ t, MaxPoolingLayer.region input f i j t
          ≤ MaxPoolingLayer.region input f i j (blockPos a b) := fun t =>
        (npArgmax_is_max hmm (MaxPoolingLayer.region input f i j) t).trans_eq
          heq.symm
      have hle := npArgmax_le_of_max hmm (MaxPoolingLayer.region input f i j)
        (blockPos a b) hmax
      have hv : m.val ≤ a.val * p + b.val := hle
      calc m.val / p * p + m.val % p = m.val := Nat.div_add_mod' m.val p
        _ ≤ a.val * p + b.val := hv
    · intro a b hab
      rw [maxpool_backward_at hp input output_error f i j, ← hm]
      refine if_neg fun hc => hab ⟨Fin.ext hc.1, Fin.ext hc.2⟩

/-- C9 : the input gradients returned by the convolution and fully-connected
backward passes are computed from the parameters held at entry to the call
(before the in-place gradient-descent update), hence are identical for any two
learning rates. -/
theorem backward_input_grad_lr_independent {F kk OH OW ninput noutput : ℕ}
    (conv_filter : Fin F → Fin (kk + 1) → Fin (kk + 1) → α) (cbias : Fin F → α)
    (cinput : Fin (OH + kk) → Fin (OW + kk) → α)
    (cerr : Fin F → Fin OH → Fin OW → α)
    (w : Fin ninput → Fin noutput → α) (fbias : Fin noutput → Fin 1 → α)
    (finput : Fin ninput → Fin 1 → α) (ferr : Fin noutput → Fin 1 → α)
    (lr lr' : α) :
    (ConvolutionLayer.backward conv_filter cbias cinput cerr lr).1 =
      (ConvolutionLayer.backward conv_filter cbias cinput cerr lr').1 ∧
    (FCLayer.backward w fbias finput ferr lr).1 =
      (FCLayer.backward w fbias finput ferr lr').1 :=
  ⟨rfl, rfl⟩

/-- Witness for C2 at one channel, pooling size `2`, a single `2 × 2` block
over `ℚ`. -/
theorem maxpool_backward_conserves_and_routes_witness :
    0 < 2 ∧
    (∑ f : Fin 1, ∑ r : Fin (1 * 2), ∑ c : Fin (1 * 2),
        MaxPoolingLayer.backward (by decide) samplePoolInput samplePoolGrad
          f r c)
      = ∑ f : Fin 1, ∑ i : Fin 1, ∑ j : Fin 1, samplePoolGrad f i j :=
  ⟨by decide,
    (maxpool_backward_conserves_and_routes (by decide) samplePoolInput
      samplePoolGrad).1⟩

/-- The maximum of a vector shifted by a constant is the shifted maximum. -/
lemma npMax_add_const {n : ℕ} (hn : 0 < n) (x : Fin n → α) (c : α) :
    npMax hn (fun i => x i + c) = npMax hn x + c := by
  unfold npMax
  apply le_antisymm
  · exact Finset.sup'_le _ _ fun i _ =>
      add_le_add_right (Finset.le_sup' x (Finset.mem_univ i)) c
  · have h : ∀ i ∈ Finset.univ, x i ≤
        (Finset.univ.sup' ⟨⟨0, hn⟩, Finset.mem_univ _⟩ fun i => x i + c) - c := by
      intro i _
      have := Finset.le_sup' (fun i => x i + c) (Finset.mem_univ i)
      linarith
    have := Finset.sup'_le ⟨⟨0, hn⟩, Finset.mem_univ _⟩ x h
    linarith

/-- C10 : the softmax forward pass is shift-invariant — adding one constant to
every entry of the input column leaves the output unchanged. -/
theorem softmax_shift_invariant {n : ℕ} (hn : 0 < n) (x : Fin n → ℝ) (c : ℝ) :
    SoftmaxLayer.forward Real.exp hn (fun i => x i + c)
      = SoftmaxLayer.forward Real.exp hn x := by
  funext i
  unfold SoftmaxLayer.forward
  rw [npMax_add_const hn x c]
  have h : ∀ j : Fin n, x j + c - (npMax hn x + c) = x j - npMax hn x :=
    fun j => by ring
  simp only [h]

/-- Witness for C10 at `n = 1`, `x = 0`, `c = 1`. -/
theorem softmax_shift_invariant_witness :
    0 < 1 ∧
    SoftmaxLayer.forward Real.exp (by decide) (fun i : Fin 1 => (0 : ℝ) + 1)
      = SoftmaxLayer.forward Real.exp (by decide) (fun _ : Fin 1 => (0 : ℝ)) :=
  ⟨by decide, softmax_shift_invariant (by decide) (fun _ => (0 : ℝ)) 1⟩

/-- C5 : for every input column, the softmax forward output (max-subtracted
exponentials normalized by their sum) has non-negative entries summing to 1. -/
theorem softmax_nonneg_sum_one {n : ℕ} (hn : 0 < n) (x : Fin n → ℝ) :
    (∀ i, 0 ≤ SoftmaxLayer.forward Real.exp hn x i) ∧
    (∑ i : Fin n, SoftmaxLayer.forward Real.exp hn x i) = 1 := by
  have hpos : ∀ j : Fin n, 0 < Real.exp (x j - npMax hn x) :=
    fun j => Real.exp_pos _
  have hsum : 0 < ∑ j : Fin n, Real.exp (x j - npMax hn x) :=
    Finset.sum_pos (fun j _ => hpos j) ⟨⟨0, hn⟩, Finset.mem_univ _⟩
  unfold SoftmaxLayer.forward
  constructor
  · intro i
    exact div_nonneg (hpos i).le hsum.le
  · rw [← Finset.sum_div, div_self hsum.ne']

/-- Witness for C5 at `n = 1`, `x = 0`. -/
theorem softmax_nonneg_sum_one_witness :
    0 < 1 ∧
    ((∀ i, 0 ≤ SoftmaxLayer.forward Real.exp (by decide)
        (fun _ : Fin 1 => (0 : ℝ)) i) ∧
      (∑ i : Fin 1, SoftmaxLayer.forward Real.exp (by decide)
        (fun _ : Fin 1 => (0 : ℝ)) i) = 1) :=
  ⟨by decide, softmax_nonneg_sum_one (by decide) (fun _ => (0 : ℝ))⟩

/-- C6 : the training driver seeds the output gradient as the zero vector
except at the true label, where it is `-1` divided by the predicted
probability; the scalar loss is the negative logarithm of the predicted
probability at the true label; and the accuracy flag is the 0/1 indicator of
the argmax of the output equalling the label. -/
theorem train_grad_loss_acc {n : ℕ} (out : Fin n → Fin 1 → ℝ) (label : Fin n) :
    (∀ c : Fin 1, outputErrorInit out label label c = -1 / out label c) ∧
    (∀ (i : Fin n) (c : Fin 1), i ≠ label → outputErrorInit out label i c = 0) ∧
    lossAt Real.log out label = -Real.log (out label 0) ∧
    (accAt out label = 1 ↔
      npArgmax label.pos (fun m => out m 0) = label) ∧
    (accAt out label = 0 ∨ accAt out label = 1) := by
  refine ⟨fun c => if_pos rfl, fun i c hi => if_neg hi, ?_, ?_, ?_⟩
  · unfold lossAt
    rw [Fin.sum_univ_one]
  · unfold accAt
    constructor
    · intro h
      by_contra hne
      rw [if_neg fun hv => hne (Fin.ext hv)] at h
      exact zero_ne_one h
    · intro h
      rw [if_pos (congrArg Fin.val h)]
  · unfold accAt
    split_ifs <;> simp

/-- Witness for C6 at `n = 2`, constant output, label `1`, off-label index
`0`. -/
theorem train_grad_loss_acc_witness :
    (0 : Fin 2) ≠ 1 ∧
    outputErrorInit (fun _ _ => (1 : ℝ)) (1 : Fin 2) 0 0 = 0 :=
  ⟨by decide,
    (train_grad_loss_acc (fun _ _ => (1 : ℝ)) 1).2.1 0 0 (by decide)⟩

/-- C8 : the training step is deterministic — it is a pure function of the
entry parameters, the sample and the label (the embedding of `train` consumes
no randomness), so two runs from the same state return identical loss,
identical accuracy flag and identical updated parameters. -/
theorem train_step_deterministic {F kk ph pw p n : ℕ} (hp : 0 < p)
    (conv_filter : Fin F → Fin (kk + 1) → Fin (kk + 1) → ℝ) (cbias : Fin F → ℝ)
    (w : Fin (F * ph * pw) → Fin n → ℝ) (fbias : Fin n → Fin 1 → ℝ)
    (image : Fin (ph * p + kk) → Fin (pw * p + kk) → ℝ) (label : Fin n)
    (lr : ℝ) :
    trainStep Real.exp Real.log hp conv_filter cbias w fbias image label lr
      = trainStep Real.exp Real.log hp conv_filter cbias w fbias image label
          lr :=
  rfl

/-- Witness for C8 at the smallest architecture over `ℝ`. -/
theorem train_step_deterministic_witness :
    (0 : ℕ) < 1 ∧
    @trainStep ℝ _ 1 0 1 1 1 1 Real.exp Real.log (by decide) (fun _ _ _ => 0)
        (fun _ => 0) (fun _ _ => 0) (fun _ _ => 0) (fun _ _ => 0) 0 1
      = @trainStep ℝ _ 1 0 1 1 1 1 Real.exp Real.log (by decide)
          (fun _ _ _ => 0) (fun _ => 0) (fun _ _ => 0) (fun _ _ => 0)
          (fun _ _ => 0) 0 1 :=
  ⟨by decide,
    train_step_deterministic (by decide) (fun _ _ _ => 0) (fun _ => 0)
      (fun _ _ => 0) (fun _ _ => 0) (fun _ _ => 0) 0 1⟩

end CNN
